import Mathlib

set_option linter.unusedSectionVars false

/-!
Shallow embedding of the ghostwriter word-morphing engine
(src/ghostwriter/morph.py).  The engine's external collaborators — the
NLTK tagger and WordNet corpus, the lemminflect generator, gensim's
`most_similar` query, numpy's `sqrt`, and the `unicodedata` tables — are
modelled as unconstrained oracle functions; everything the repository's
own code computes (guards, filters, vector arithmetic, scoring, sorting,
deduplication, truncation) is embedded directly.  `none` from an oracle
models a raised exception at call sites where the code catches one.
-/

/-- WordNet POS constants (`wordnet.NOUN` / `VERB` / `ADJ` / `ADV`). -/
inductive WNPos : Type
  | noun
  | verb
  | adj
  | adv
deriving DecidableEq

/-- The coarse POS buckets returned (as strings) by `_coarse_pos`. -/
inductive Coarse : Type
  | noun
  | verb
  | adj
  | adv
deriving DecidableEq

/-- Word vectors (numpy float arrays) as lists of scalars. -/
abbrev Vec (α : Type) := List α

/-- The embedding model (gensim `KeyedVectors`): `vec w = some v` models
`w in model` together with `model[w] = v`. -/
structure EmbModel (α : Type) where
  vec : String → Option (Vec α)

/-- External collaborators of morph.py.
`posTagSeq` models `nltk.tag.pos_tag` on a token list (`none` = the
tagger raised); `wnLemmaNames` models the traversal of WordNet synsets,
their one-hop relations and lemma names inside `_wordnet_synonyms`;
`lemmatize` models `WordNetLemmatizer().lemmatize`; `hasSynsets w p`
models `len(wordnet.synsets(w, pos=p)) > 0`; `getInflection` models
`lemminflect.getInflection` (`none` = import failure or exception);
`mostSimilar` models `model.most_similar` (`none` = `KeyError`);
`sqrt` models `np.linalg.norm`'s square root; `uniNameWords cp` models
`unicodedata.name(chr(cp)).split()` (`none` = `ValueError`); and
`uniCategory cp` models `unicodedata.category(chr(cp))`. -/
structure Oracles (α : Type) where
  posTagSeq : List String → Option (List (String × String))
  wnLemmaNames : String → WNPos → List String
  lemmatize : String → WNPos → String
  hasSynsets : String → WNPos → Bool
  getInflection : String → String → Option (List String)
  mostSimilar : List String → List String → Nat → Option (List (String × α))
  sqrt : α → α
  uniNameWords : Nat → Option (List String)
  uniCategory : Nat → String

variable {α : Type} [LinearOrderedField α] [FloorRing α]

/-- Python `str.lower()`; kernel-reducible list form of `String.toLower`. -/
def strLower (s : String) : String := String.mk (s.toList.map Char.toLower)

/-- `str.startswith` on the two-character Penn-Treebank tag prefixes. -/
def startsWith2 (s : String) (a b : Char) : Bool :=
  match s.toList with
  | c1 :: c2 :: _ => c1 == a && c2 == b
  | _ => false

/-- `np.dot` on two vectors. -/
def dot (u v : Vec α) : α := (List.zipWith (fun a b => a * b) u v).sum

/-- Squared Euclidean norm, `np.dot(v, v)`. -/
def normSq (v : Vec α) : α := dot v v

/-- `np.linalg.norm`, via the square-root oracle. -/
def vnorm (o : Oracles α) (v : Vec α) : α := o.sqrt (normSq v)

/-- Elementwise numpy vector addition. -/
def vadd (u v : Vec α) : Vec α := List.zipWith (fun a b => a + b) u v

/-- Elementwise numpy vector subtraction. -/
def vsub (u v : Vec α) : Vec α := List.zipWith (fun a b => a - b) u v

/-- Scalar division `v / c` of a numpy vector. -/
def sdiv (v : Vec α) (c : α) : Vec α := v.map (fun a => a / c)

/-- Elementwise sum of a batch of vectors. -/
def vsum : List (Vec α) → Vec α
  | [] => []
  | v :: vs => vs.foldl vadd v

/-- `np.mean(vecs, axis=0)`. -/
def vmean (vs : List (Vec α)) : Vec α := sdiv (vsum vs) ((vs.length : Nat) : α)

/-- The repeated pattern `norm = np.linalg.norm(v); if norm > 0: v /= norm`. -/
def normalizeVec (o : Oracles α) (v : Vec α) : Vec α :=
  if 0 < vnorm o v then sdiv v (vnorm o v) else v

/-- Python integer `round`: banker's rounding, ties to the even integer. -/
def pyRoundInt (y : α) : ℤ :=
  if y - ((⌊y⌋ : ℤ) : α) < 1/2 then ⌊y⌋
  else if 1/2 < y - ((⌊y⌋ : ℤ) : α) then ⌊y⌋ + 1
  else if ⌊y⌋ % 2 = 0 then ⌊y⌋ else ⌊y⌋ + 1

/-- Python `round(x, 4)`. -/
def round4 (x : α) : α := ((pyRoundInt (x * 10000) : ℤ) : α) / 10000

/-- A single replacement suggestion (`Candidate` dataclass). -/
structure Candidate (α : Type) where
  word : String
  score : α
deriving DecidableEq

/-- Result of morphing one word toward a vibe (`MorphResult` dataclass). -/
structure MorphResult (α : Type) where
  original : String
  vibe : String
  source_vibe : Option String
  candidates : List (Candidate α)
deriving DecidableEq

/-- `_in_vocab`: `word.lower() in model`. -/
def in_vocab (m : EmbModel α) (word : String) : Bool :=
  (m.vec (strLower word)).isSome

/-- `model[w]`.  The code only evaluates this after an `_in_vocab`
membership check establishes the key; a missing key defaults to `[]`. -/
def getVec (m : EmbModel α) (word : String) : Vec α :=
  (m.vec word).getD []

/-- `_pos_tag_word`: tag in context when a context is supplied and the
word is found in it, otherwise tag in isolation; any tagger exception
(and the empty tagging of `[word]`) yields `none`. -/
def pos_tag_word (o : Oracles α) (word : String) (context : Option (List String)) :
    Option String :=
  let isolated : Option String :=
    match o.posTagSeq [word] with
    | some ((_, t) :: _) => some t
    | _ => none
  match context with
  | some ctx =>
    if ctx.isEmpty then isolated
    else
      match o.posTagSeq ctx with
      | none => none
      | some tagged =>
        match tagged.find? (fun p => strLower p.1 == strLower word) with
        | some p => some p.2
        | none => isolated
  | none => isolated

/-- `_ptb_to_wordnet`. -/
def ptb_to_wordnet (tag : String) : Option WNPos :=
  if startsWith2 tag ('N') ('N') then some WNPos.noun
  else if startsWith2 tag ('V') ('B') then some WNPos.verb
  else if startsWith2 tag ('J') ('J') then some WNPos.adj
  else if startsWith2 tag ('R') ('B') then some WNPos.adv
  else none

/-- `_coarse_pos`. -/
def coarse_pos (tag : Option String) : Option Coarse :=
  match tag with
  | none => none
  | some t =>
    if startsWith2 t ('N') ('N') then some Coarse.noun
    else if startsWith2 t ('V') ('B') then some Coarse.verb
    else if startsWith2 t ('J') ('J') then some Coarse.adj
    else if startsWith2 t ('R') ('B') then some Coarse.adv
    else none

/-- The `_COARSE_TO_WN` mapping. -/
def coarseToWN : Coarse → WNPos
  | Coarse.noun => WNPos.noun
  | Coarse.verb => WNPos.verb
  | Coarse.adj => WNPos.adj
  | Coarse.adv => WNPos.adv

/-- `_can_be_pos`: ground-truth POS check via WordNet synsets. -/
def can_be_pos (o : Oracles α) (word : String) (c : Coarse) : Bool :=
  o.hasSynsets word (coarseToWN c)

/-- `_wordnet_synonyms`: lemma names from the WordNet oracle, lowercased,
multi-word entries (containing an underscore) and the lemma itself
removed. -/
def wordnet_synonyms (o : Oracles α) (lem : String) (wp : WNPos) : List String :=
  ((o.wnLemmaNames lem wp).map strLower).filter
    (fun w => !(w.toList.contains ('_')) && w != lem)

/-- `_inflect`: first inflected form when lemminflect produces any,
otherwise (empty form list, import failure, exception) the word. -/
def inflect (o : Oracles α) (word : String) (tag : String) : String :=
  match o.getInflection word tag with
  | some (f :: _) => f
  | _ => word

/-- `_WORD_RE.match`: a nonempty all-lowercase-ASCII-letter token. -/
def word_re (s : String) : Bool :=
  !s.toList.isEmpty && s.toList.all (fun c => decide (('a') ≤ c) && decide (c ≤ ('z')))

/-- The `ptb_tag` computed by `morph_word`. -/
def ptbTagOf (o : Oracles α) (word : String) (context : Option (List String)) :
    Option String :=
  pos_tag_word o (strLower word) context

/-- The `wn_pos` computed by `morph_word`. -/
def wnPosOf (o : Oracles α) (word : String) (context : Option (List String)) :
    Option WNPos :=
  match ptbTagOf o word context with
  | some t => ptb_to_wordnet t
  | none => none

/-- The `coarse` computed by `morph_word`. -/
def coarseOf (o : Oracles α) (word : String) (context : Option (List String)) :
    Option Coarse :=
  coarse_pos (ptbTagOf o word context)

/-- The `lemma` computed by `morph_word`. -/
def lemmaOf (o : Oracles α) (word : String) (context : Option (List String)) : String :=
  match wnPosOf o word context with
  | some wp => o.lemmatize (strLower word) wp
  | none => strLower word

/-- The guard `if source_vibe and _in_vocab(model, source_vibe.lower())`
which `morph_word` evaluates (identically) at both of its use sites,
returning the lowered source vibe when usable. -/
def srcUse (m : EmbModel α) (source_vibe : Option String) : Option String :=
  match source_vibe with
  | some s => if !s.toList.isEmpty && in_vocab m (strLower s) then some (strLower s) else none
  | none => none

/-- The target vector `word + vibe − source_vibe`, unit-normalized when
its norm is positive. -/
def targetVecOf (o : Oracles α) (m : EmbModel α) (word target_vibe : String)
    (source_vibe : Option String) : Vec α :=
  normalizeVec o
    (match srcUse m source_vibe with
     | some sl =>
       vsub (vadd (getVec m (strLower word)) (getVec m (strLower target_vibe)))
         (getVec m sl)
     | none => vadd (getVec m (strLower word)) (getVec m (strLower target_vibe)))

/-- Candidate-pool source 1: WordNet synonyms, POS-filtered. -/
def wnPoolOf (o : Oracles α) (word : String) (context : Option (List String)) :
    List String :=
  match wnPosOf o word context with
  | none => []
  | some wp =>
    let cands := wordnet_synonyms o (lemmaOf o word context) wp
    match coarseOf o word context with
    | some c => cands.filter (fun w => coarse_pos (pos_tag_word o w none) == some c)
    | none => cands

/-- Candidate-pool source 2: embedding neighbours via `most_similar`,
filtered and lemmatized exactly as in the `for cand_word, _score in raw`
loop; a `KeyError` (oracle `none`) contributes nothing. -/
def simCandsOf (o : Oracles α) (m : EmbModel α) (word target_vibe : String)
    (source_vibe : Option String) (top_n : Nat) (context : Option (List String)) :
    List String :=
  let low := strLower word
  let vibe_low := strLower target_vibe
  let lem := lemmaOf o word context
  let negative := match srcUse m source_vibe with | some sl => [sl] | none => []
  match o.mostSimilar [low, vibe_low] negative (top_n * 5) with
  | none => []
  | some raw =>
    raw.filterMap (fun p =>
      let cw := strLower p.1
      if cw == low || cw == vibe_low || cw == lem then none
      else if !word_re cw then none
      else if !(match coarseOf o word context with
                | some c => coarse_pos (pos_tag_word o cw none) == some c
                | none => true) then none
      else
        let cw2 := match wnPosOf o word context with
                   | some wp => o.lemmatize cw wp
                   | none => cw
        if cw2 == low || cw2 == vibe_low || cw2 == lem then none
        else some cw2)

/-- Adding one element to the pool (Python `set.add`, first-insertion
order kept). -/
def insertNew (l : List String) (x : String) : List String :=
  if l.contains x then l else l ++ [x]

/-- The merged candidate pool of base-form words. -/
def poolOf (o : Oracles α) (m : EmbModel α) (word target_vibe : String)
    (source_vibe : Option String) (top_n : Nat) (context : Option (List String)) :
    List String :=
  (simCandsOf o m word target_vibe source_vibe top_n context).foldl insertNew
    ((wnPoolOf o word context).foldl insertNew [])

/-- The `scored` list: each pooled candidate surviving the vocabulary,
`_can_be_pos` and zero-norm checks, paired with
`np.dot(target_vec, cand_vec) / cand_norm`. -/
def scoredOf (o : Oracles α) (m : EmbModel α) (word target_vibe : String)
    (source_vibe : Option String) (top_n : Nat) (context : Option (List String)) :
    List (String × α) :=
  (poolOf o m word target_vibe source_vibe top_n context).filterMap (fun cand =>
    if !(in_vocab m cand) then none
    else if !(match coarseOf o word context with
              | some c => can_be_pos o cand c
              | none => true) then none
    else if vnorm o (getVec m cand) = 0 then none
    else some (cand,
      dot (targetVecOf o m word target_vibe source_vibe) (getVec m cand) /
        vnorm o (getVec m cand)))

/-- The comparison of `sort(key=lambda x: x[1], reverse=True)`: `a`
precedes `b` when `a`'s score is at least `b`'s. -/
def scoreGE : (String × α) → (String × α) → Prop := fun a b => b.2 ≤ a.2

instance : DecidableRel (@scoreGE α _) :=
  fun a b => inferInstanceAs (Decidable (b.2 ≤ a.2))

instance : IsTotal (String × α) (@scoreGE α _) :=
  ⟨fun a b => le_total b.2 a.2⟩

instance : IsTrans (String × α) (@scoreGE α _) :=
  ⟨fun _ _ _ h1 h2 => le_trans h2 h1⟩

/-- `scored.sort(key=lambda x: x[1], reverse=True)`.  Python's sort is
stable and a stable sort's output is determined uniquely by the
comparator, so the stable `insertionSort` computes the same list. -/
def sortedScoredOf (o : Oracles α) (m : EmbModel α) (word target_vibe : String)
    (source_vibe : Option String) (top_n : Nat) (context : Option (List String)) :
    List (String × α) :=
  (scoredOf o m word target_vibe source_vibe top_n context).insertionSort scoreGE

/-- `inflected = _inflect(cand_lemma, ptb_tag) if ptb_tag else cand_lemma`. -/
def inflectTag (o : Oracles α) (tag : Option String) (w : String) : String :=
  match tag with
  | some t => inflect o w t
  | none => w

/-- The final inflect / deduplicate / truncate loop of `morph_word`:
append the re-inflected candidate unless its lowercased surface was seen
or equals the original, and stop once `top_n` candidates are collected
(the check runs after the append, so a zero `top_n` still admits one
candidate). -/
def selectCands (o : Oracles α) (tag : Option String) (low : String) (top_n : Nat) :
    List (String × α) → List String → List (Candidate α) → List (Candidate α)
  | [], _, acc => acc
  | (cl, sc) :: rest, seen, acc =>
    if seen.contains (strLower (inflectTag o tag cl)) ||
        strLower (inflectTag o tag cl) == low then
      selectCands o tag low top_n rest seen acc
    else if top_n ≤ (acc ++ [Candidate.mk (inflectTag o tag cl) (round4 sc)]).length then
      acc ++ [Candidate.mk (inflectTag o tag cl) (round4 sc)]
    else
      selectCands o tag low top_n rest (strLower (inflectTag o tag cl) :: seen)
        (acc ++ [Candidate.mk (inflectTag o tag cl) (round4 sc)])

/-- `morph_word`. -/
def morph_word (o : Oracles α) (m : EmbModel α) (word target_vibe : String)
    (source_vibe : Option String) (top_n : Nat) (context : Option (List String)) :
    MorphResult α :=
  if !(in_vocab m (strLower word) && in_vocab m (strLower target_vibe)) then
    ⟨word, target_vibe, source_vibe, []⟩
  else
    ⟨word, target_vibe, source_vibe,
      selectCands o (ptbTagOf o word context) (strLower word) top_n
        (sortedScoredOf o m word target_vibe source_vibe top_n context) [] []⟩

/-- `morph_words`: per-word calls over `zip(words, contexts)`, contexts
defaulting to `[None] * len(words)`. -/
def morph_words (o : Oracles α) (m : EmbModel α) (words : List String)
    (target_vibe : String) (source_vibe : Option String) (top_n : Nat)
    (contexts : Option (List (List String))) : List (MorphResult α) :=
  let ctxs : List (Option (List String)) :=
    match contexts with
    | none => words.map (fun _ => none)
    | some cs => cs.map (fun c => some c)
  (words.zip ctxs).map (fun p => morph_word o m p.1 target_vibe source_vibe top_n p.2)

/-- `_EMOJI_STOP`. -/
def EMOJI_STOP : List String :=
  ["face", "with", "and", "of", "in", "on", "the", "a", "an",
   "sign", "mark", "symbol", "button", "type", "skin", "tone",
   "light", "medium", "dark"]

/-- `_EMOJI_RANGES`. -/
def EMOJI_RANGES : List (Nat × Nat) :=
  [(0x1F300, 0x1F5FF), (0x1F600, 0x1F64F), (0x1F680, 0x1F6FF),
   (0x1F900, 0x1F9FF), (0x1FA70, 0x1FAFF), (0x2600, 0x27BF), (0x2300, 0x23FF)]

/-- All code points scanned by `_build_emoji_index`. -/
def emojiCps : List Nat :=
  EMOJI_RANGES.flatMap (fun p => List.range' p.1 (p.2 + 1 - p.1))

/-- The keyword vectors of one scanned glyph:
`[model[k] for k in keywords if _in_vocab(model, k)]` where
`keywords = [w.lower() for w in name.split() if w.lower() not in _EMOJI_STOP]`. -/
def emojiKeywordVecs (m : EmbModel α) (nameWords : List String) : List (Vec α) :=
  ((nameWords.map strLower).filter (fun w => !EMOJI_STOP.contains w)).filterMap
    (fun k => if in_vocab m k then some (getVec m k) else none)

/-- The body of the `_build_emoji_index` loop on one code point:
`none` when the glyph is skipped (no Unicode name, wrong category, or no
in-vocabulary keywords). -/
def emojiEntry (o : Oracles α) (m : EmbModel α) (cp : Nat) : Option (String × Vec α) :=
  match o.uniNameWords cp with
  | none => none
  | some nameWords =>
    if !(o.uniCategory cp == ("So") || o.uniCategory cp == ("Sk")) then none
    else if (emojiKeywordVecs m nameWords).isEmpty then none
    else some (String.mk [Char.ofNat cp],
      normalizeVec o (vmean (emojiKeywordVecs m nameWords)))

/-- `_build_emoji_index`: the (char → vector) index and the char list. -/
def build_emoji_index (o : Oracles α) (m : EmbModel α) :
    List (String × Vec α) × List String :=
  (emojiCps.filterMap (fun cp => emojiEntry o m cp),
   (emojiCps.filterMap (fun cp => emojiEntry o m cp)).map (fun e => e.1))

/-- Dict lookup `index[ch]` / membership `ch in index`. -/
def indexLookup (idx : List (String × Vec α)) (k : String) : Option (Vec α) :=
  match idx.find? (fun e => e.1 == k) with
  | some e => some e.2
  | none => none

/-- The emoji target vector: index vector plus unit-normalized vibe
vector, the sum unit-normalized again. -/
def emojiTargetOf (o : Oracles α) (m : EmbModel α) (source_vec : Vec α)
    (target_vibe : String) : Vec α :=
  normalizeVec o
    (vadd source_vec (normalizeVec o (getVec m (strLower target_vibe))))

/-- The `scored` list of `morph_emoji`: every indexed glyph other than
the input, dotted against the target vector. -/
def emojiScoredOf (o : Oracles α) (m : EmbModel α) (emoji target_vibe : String) :
    List (String × α) :=
  match indexLookup (build_emoji_index o m).1 emoji with
  | none => []
  | some source_vec =>
    ((build_emoji_index o m).2.filter (fun ch => !(ch == emoji))).map
      (fun ch => (ch, dot ((indexLookup (build_emoji_index o m).1 ch).getD [])
        (emojiTargetOf o m source_vec target_vibe)))

/-- `morph_emoji`. -/
def morph_emoji (o : Oracles α) (m : EmbModel α) (emoji target_vibe : String)
    (top_n : Nat) : MorphResult α :=
  match indexLookup (build_emoji_index o m).1 emoji with
  | none => ⟨emoji, target_vibe, none, []⟩
  | some _ =>
    if !(in_vocab m (strLower target_vibe)) then ⟨emoji, target_vibe, none, []⟩
    else
      ⟨emoji, target_vibe, none,
        (((emojiScoredOf o m emoji target_vibe).insertionSort scoreGE).take
          top_n).map (fun p => Candidate.mk p.1 (round4 p.2))⟩

/-- `is_emoji`. -/
def is_emoji (text : String) : Bool :=
  match text.toList with
  | [c] =>
    let cp := c.toNat
    (decide (0x1F300 ≤ cp) && decide (cp ≤ 0x1FAFF)) ||
    (decide (0x2600 ≤ cp) && decide (cp ≤ 0x27BF)) ||
    (decide (0x2300 ≤ cp) && decide (cp ≤ 0x23FF))
  | _ => false

/-- Membership of a code point in the `_EMOJI_RANGES` scanned by the
index build (not the same set as `is_emoji`). -/
def inBuildRanges (cp : Nat) : Bool :=
  EMOJI_RANGES.any (fun p => decide (p.1 ≤ cp) && decide (cp ≤ p.2))

/-! ### Arithmetic helper lemmas -/

theorem dot_nil_right (u : Vec α) : dot u [] = 0 := by
  simp [dot]

theorem dot_nil_left (v : Vec α) : dot [] v = 0 := by
  simp [dot]

theorem dot_cons (a b : α) (u v : Vec α) :
    dot (a :: u) (b :: v) = a * b + dot u v := by
  simp [dot]

theorem normSq_cons (a : α) (v : Vec α) :
    normSq (a :: v) = a * a + normSq v := by
  simp [normSq, dot]

theorem normSq_nil : normSq ([] : Vec α) = 0 := by
  simp [normSq, dot]

theorem normSq_nonneg (v : Vec α) : 0 ≤ normSq v := by
  induction v with
  | nil => simp [normSq_nil]
  | cons a v ih => rw [normSq_cons]; nlinarith [mul_self_nonneg a]

/-- Cauchy–Schwarz for the truncating list dot product. -/
theorem dot_sq_le_normSq_mul (u v : Vec α) :
    dot u v * dot u v ≤ normSq u * normSq v := by
  induction u generalizing v with
  | nil => simp [dot_nil_left, normSq_nil]
  | cons a u ih =>
    cases v with
    | nil =>
      rw [dot_nil_right, normSq_nil, mul_zero]
      simp
    | cons b v =>
      have h1 := ih v
      have h2 := normSq_nonneg (α := α) u
      have h3 := normSq_nonneg (α := α) v
      rw [dot_cons, normSq_cons, normSq_cons]
      rcases eq_or_lt_of_le h3 with hq | hq
      · have hd : dot u v * dot u v ≤ 0 := by
          have h5 := h1
          rw [← hq, mul_zero] at h5
          exact h5
        have hd0 : dot u v = 0 :=
          mul_self_eq_zero.mp (le_antisymm hd (mul_self_nonneg _))
        rw [hd0, ← hq]
        nlinarith [mul_nonneg h2 (mul_self_nonneg b)]
      · nlinarith [sq_nonneg (a * normSq v - b * dot u v),
          mul_nonneg (le_of_lt hq) (sub_nonneg.mpr h1), mul_self_nonneg (a * b)]

theorem normSq_sdiv (v : Vec α) (c : α) (hc : c ≠ 0) :
    normSq (sdiv v c) = normSq v / (c * c) := by
  induction v with
  | nil => simp [sdiv, normSq_nil]
  | cons a v ih =>
    have : sdiv (a :: v) c = (a / c) :: sdiv v c := by simp [sdiv]
    rw [this, normSq_cons, normSq_cons, ih]
    field_simp

theorem dot_eq_zero_of_normSq_zero (u v : Vec α) (h : normSq u = 0) : dot u v = 0 := by
  have h1 := dot_sq_le_normSq_mul u v
  rw [h, zero_mul] at h1
  nlinarith [mul_self_nonneg (dot u v)]

theorem pyRoundInt_cases (y : α) :
    pyRoundInt y = ⌊y⌋ ∨ pyRoundInt y = ⌊y⌋ + 1 := by
  unfold pyRoundInt
  split_ifs <;> simp

theorem pyRoundInt_le (y : α) : (pyRoundInt y : α) ≤ y + 1/2 := by
  have hfl := Int.floor_le y
  have hlt := Int.lt_floor_add_one y
  unfold pyRoundInt
  split_ifs with h1 h2 h3 <;> push_cast <;> linarith

theorem le_pyRoundInt (y : α) : y - 1/2 ≤ (pyRoundInt y : α) := by
  have hfl := Int.floor_le y
  have hlt := Int.lt_floor_add_one y
  unfold pyRoundInt
  split_ifs with h1 h2 h3 <;> push_cast <;> linarith

theorem pyRoundInt_mono {y z : α} (h : y ≤ z) : pyRoundInt y ≤ pyRoundInt z := by
  have hf : ⌊y⌋ ≤ ⌊z⌋ := Int.floor_mono h
  rcases eq_or_lt_of_le hf with he | hlt
  · unfold pyRoundInt
    rw [← he]
    split_ifs <;> first | omega | (exfalso; linarith)
  · have c1 := pyRoundInt_cases y
    have c2 := pyRoundInt_cases z
    omega

theorem round4_mono {x y : α} (h : x ≤ y) : round4 x ≤ round4 y := by
  unfold round4
  have h1 : x * 10000 ≤ y * 10000 := by linarith
  have h2 := pyRoundInt_mono h1
  gcongr

theorem round4_le_one {x : α} (h : x ≤ 1) : round4 x ≤ 1 := by
  have h1 : x * 10000 ≤ 10000 := by linarith
  have h2 : (pyRoundInt (x * 10000) : α) ≤ 10000 + 1/2 :=
    (pyRoundInt_le (x * 10000)).trans (by linarith)
  have h3 : pyRoundInt (x * 10000) < 10001 := by
    by_contra hc
    push_neg at hc
    have : ((10001 : ℤ) : α) ≤ (pyRoundInt (x * 10000) : α) := by exact_mod_cast hc
    push_cast at this
    linarith
  have h4 : pyRoundInt (x * 10000) ≤ 10000 := by omega
  have h5 : ((pyRoundInt (x * 10000) : ℤ) : α) ≤ 10000 := by exact_mod_cast h4
  unfold round4
  rw [div_le_one (by norm_num : (0:α) < 10000)]
  exact h5

theorem neg_one_le_round4 {x : α} (h : -1 ≤ x) : -1 ≤ round4 x := by
  have h1 : (-10000 : α) ≤ x * 10000 := by linarith
  have h2 : x * 10000 - 1/2 ≤ (pyRoundInt (x * 10000) : α) := le_pyRoundInt _
  have h3 : (-10001 : α) < (pyRoundInt (x * 10000) : α) := by linarith
  have h4 : (-10001 : ℤ) < pyRoundInt (x * 10000) := by exact_mod_cast h3
  have h5 : (-10000 : ℤ) ≤ pyRoundInt (x * 10000) := by omega
  have h6 : (-10000 : α) ≤ ((pyRoundInt (x * 10000) : ℤ) : α) := by exact_mod_cast h5
  unfold round4
  rw [le_div_iff₀ (by norm_num : (0:α) < 10000)]
  linarith

/-! ### Normalization over the reals -/

theorem normalizeVec_normSq (o : Oracles ℝ) (hs : o.sqrt = Real.sqrt) (v : Vec ℝ) :
    normSq (normalizeVec o v) = 1 ∨ normSq (normalizeVec o v) = 0 := by
  unfold normalizeVec vnorm
  rw [hs]
  by_cases h : 0 < Real.sqrt (normSq v)
  · left
    rw [if_pos h]
    have hpos : 0 < normSq v := Real.sqrt_pos.mp h
    rw [normSq_sdiv v _ (ne_of_gt h), Real.mul_self_sqrt (le_of_lt hpos)]
    exact div_self (ne_of_gt hpos)
  · right
    rw [if_neg h]
    have h0 : Real.sqrt (normSq v) = 0 :=
      le_antisymm (not_lt.mp h) (Real.sqrt_nonneg _)
    exact le_antisymm (Real.sqrt_eq_zero'.mp h0) (normSq_nonneg v)

theorem cos_sim_bound (t c : Vec ℝ) (ht : normSq t = 1 ∨ normSq t = 0)
    (hc : Real.sqrt (normSq c) ≠ 0) :
    -1 ≤ dot t c / Real.sqrt (normSq c) ∧ dot t c / Real.sqrt (normSq c) ≤ 1 := by
  have hcn : 0 ≤ normSq c := normSq_nonneg c
  have hs0 : 0 < Real.sqrt (normSq c) :=
    lt_of_le_of_ne (Real.sqrt_nonneg _) (Ne.symm hc)
  have hsq : Real.sqrt (normSq c) * Real.sqrt (normSq c) = normSq c :=
    Real.mul_self_sqrt hcn
  have hCS := dot_sq_le_normSq_mul t c
  have hTle : normSq t ≤ 1 := by rcases ht with h | h <;> simp [h]
  have hdot : dot t c * dot t c ≤ Real.sqrt (normSq c) * Real.sqrt (normSq c) := by
    rw [hsq]
    calc dot t c * dot t c ≤ normSq t * normSq c := hCS
    _ ≤ 1 * normSq c := by nlinarith
    _ = normSq c := one_mul _
  constructor
  · rw [le_div_iff₀ hs0]
    nlinarith [sq_nonneg (dot t c + Real.sqrt (normSq c))]
  · rw [div_le_one hs0]
    nlinarith [sq_nonneg (dot t c - Real.sqrt (normSq c))]

/-- A real with square at most one lies in the interval. -/
theorem interval_of_sq_le_one {x : ℝ} (h : x * x ≤ 1) : -1 ≤ x ∧ x ≤ 1 :=
  ⟨by nlinarith [sq_nonneg (x + 1)], by nlinarith [sq_nonneg (x - 1)]⟩

/-! ### Invariants of the selection loop -/

theorem contains_true_iff {l : List String} {x : String} :
    l.contains x = true ↔ x ∈ l := by
  simp [List.contains, List.elem_iff]

theorem selectCands_mem (o : Oracles α) (tag : Option String) (low : String)
    (top_n : Nat) :
    ∀ (rest : List (String × α)) (seen : List String) (acc : List (Candidate α))
      (c : Candidate α), c ∈ selectCands o tag low top_n rest seen acc →
      c ∈ acc ∨ ∃ p ∈ rest, c.word = inflectTag o tag p.1 ∧ c.score = round4 p.2
  | [], seen, acc, c, hc => Or.inl hc
  | (cl, sc) :: rest, seen, acc, c, hc => by
    rw [selectCands] at hc
    split_ifs at hc with h1 h2
    · rcases selectCands_mem o tag low top_n rest seen acc c hc with h | ⟨p, hp, he⟩
      · exact Or.inl h
      · exact Or.inr ⟨p, List.mem_cons_of_mem _ hp, he⟩
    · rcases List.mem_append.mp hc with h | h
      · exact Or.inl h
      · rcases List.mem_singleton.mp h with rfl
        exact Or.inr ⟨(cl, sc), List.mem_cons_self _ _, rfl, rfl⟩
    · rcases selectCands_mem o tag low top_n rest _ _ c hc with h | ⟨p, hp, he⟩
      · rcases List.mem_append.mp h with h' | h'
        · exact Or.inl h'
        · rcases List.mem_singleton.mp h' with rfl
          exact Or.inr ⟨(cl, sc), List.mem_cons_self _ _, rfl, rfl⟩
      · exact Or.inr ⟨p, List.mem_cons_of_mem _ hp, he⟩

theorem selectCands_ne_low (o : Oracles α) (tag : Option String) (low : String)
    (top_n : Nat) :
    ∀ (rest : List (String × α)) (seen : List String) (acc : List (Candidate α)),
      (∀ a ∈ acc, strLower a.word ≠ low) →
      ∀ c ∈ selectCands o tag low top_n rest seen acc, strLower c.word ≠ low
  | [], seen, acc, hacc, c, hc => hacc c hc
  | (cl, sc) :: rest, seen, acc, hacc, c, hc => by
    rw [selectCands] at hc
    split_ifs at hc with h1 h2
    · exact selectCands_ne_low o tag low top_n rest seen acc hacc c hc
    · rcases List.mem_append.mp hc with h | h
      · exact hacc c h
      · rcases List.mem_singleton.mp h with rfl
        simp only [Bool.or_eq_true, not_or, Bool.not_eq_true] at h1
        simpa using h1.2
    · refine selectCands_ne_low o tag low top_n rest _ _ ?_ c hc
      intro a ha
      rcases List.mem_append.mp ha with h | h
      · exact hacc a h
      · rcases List.mem_singleton.mp h with rfl
        simp only [Bool.or_eq_true, not_or, Bool.not_eq_true] at h1
        simpa using h1.2

theorem selectCands_nodup (o : Oracles α) (tag : Option String) (low : String)
    (top_n : Nat) :
    ∀ (rest : List (String × α)) (seen : List String) (acc : List (Candidate α)),
      (acc.map (fun a => strLower a.word)).Nodup →
      (∀ a ∈ acc, strLower a.word ∈ seen) →
      ((selectCands o tag low top_n rest seen acc).map
        (fun a => strLower a.word)).Nodup
  | [], seen, acc, h1, h2 => h1
  | (cl, sc) :: rest, seen, acc, hnd, hsub => by
    rw [selectCands]
    split_ifs with h1 h2
    · exact selectCands_nodup o tag low top_n rest seen acc hnd hsub
    · rw [List.map_append, List.map_singleton]
      rw [List.nodup_append]
      refine ⟨hnd, List.nodup_singleton _, ?_⟩
      intro x hx hx2
      rcases List.mem_map.mp hx with ⟨a, ha, rfl⟩
      have he := List.mem_singleton.mp hx2
      simp only [Bool.or_eq_true, not_or] at h1
      exact (fun hm => h1.1 (contains_true_iff.mpr hm)) (he ▸ hsub a ha)
    · refine selectCands_nodup o tag low top_n rest _ _ ?_ ?_
      · rw [List.map_append, List.map_singleton, List.nodup_append]
        refine ⟨hnd, List.nodup_singleton _, ?_⟩
        intro x hx hx2
        rcases List.mem_map.mp hx with ⟨a, ha, rfl⟩
        have he := List.mem_singleton.mp hx2
        simp only [Bool.or_eq_true, not_or] at h1
        exact (fun hm => h1.1 (contains_true_iff.mpr hm)) (he ▸ hsub a ha)
      · intro a ha
        rcases List.mem_append.mp ha with h | h
        · exact List.mem_cons_of_mem _ (hsub a h)
        · rcases List.mem_singleton.mp h with rfl
          exact List.mem_cons_self _ _

theorem selectCands_length_lt (o : Oracles α) (tag : Option String) (low : String)
    (top_n : Nat) :
    ∀ (rest : List (String × α)) (seen : List String) (acc : List (Candidate α)),
      acc.length < top_n →
      (selectCands o tag low top_n rest seen acc).length ≤ top_n
  | [], seen, acc, h => le_of_lt h
  | (cl, sc) :: rest, seen, acc, h => by
    rw [selectCands]
    split_ifs with h1 h2
    · exact selectCands_length_lt o tag low top_n rest seen acc h
    · rw [List.length_append, List.length_singleton]
      omega
    · rw [List.length_append, List.length_singleton] at h2
      exact selectCands_length_lt o tag low top_n rest _ _ (by
        rw [List.length_append, List.length_singleton]
        omega)

theorem selectCands_length (o : Oracles α) (tag : Option String) (low : String)
    (top_n : Nat) :
    ∀ (rest : List (String × α)) (seen : List String) (acc : List (Candidate α)),
      (selectCands o tag low top_n rest seen acc).length ≤
        max top_n (acc.length + 1)
  | [], seen, acc => by
    exact le_trans (Nat.le_succ _) (le_max_right _ _)
  | (cl, sc) :: rest, seen, acc => by
    rw [selectCands]
    split_ifs with h1 h2
    · exact selectCands_length o tag low top_n rest seen acc
    · rw [List.length_append, List.length_singleton]
      exact le_max_right _ _
    · rw [List.length_append, List.length_singleton] at h2
      have := selectCands_length_lt o tag low top_n rest
        (strLower (inflectTag o tag cl) :: seen)
        (acc ++ [Candidate.mk (inflectTag o tag cl) (round4 sc)]) (by
          rw [List.length_append, List.length_singleton]
          omega)
      exact le_trans this (le_max_left _ _)

theorem selectCands_sorted (o : Oracles α) (tag : Option String) (low : String)
    (top_n : Nat) :
    ∀ (rest : List (String × α)) (seen : List String) (acc : List (Candidate α)),
      List.Pairwise (fun a b : Candidate α => b.score ≤ a.score) acc →
      List.Pairwise (fun p q : String × α => q.2 ≤ p.2) rest →
      (∀ a ∈ acc, ∀ p ∈ rest, round4 p.2 ≤ a.score) →
      List.Pairwise (fun a b : Candidate α => b.score ≤ a.score)
        (selectCands o tag low top_n rest seen acc)
  | [], seen, acc, hacc, _, _ => hacc
  | (cl, sc) :: rest, seen, acc, hacc, hrest, hcross => by
    have hrtail := (List.pairwise_cons.mp hrest).2
    have hhead : ∀ p ∈ rest, p.2 ≤ sc := by
      intro p hp
      exact (List.pairwise_cons.mp hrest).1 p hp
    rw [selectCands]
    split_ifs with h1 h2
    · refine selectCands_sorted o tag low top_n rest seen acc hacc hrtail ?_
      intro a ha p hp
      exact hcross a ha p (List.mem_cons_of_mem _ hp)
    · rw [List.pairwise_append]
      refine ⟨hacc, List.pairwise_singleton _ _, ?_⟩
      intro a ha b hb
      rcases List.mem_singleton.mp hb with rfl
      exact hcross a ha (cl, sc) (List.mem_cons_self _ _)
    · refine selectCands_sorted o tag low top_n rest _ _ ?_ hrtail ?_
      · rw [List.pairwise_append]
        refine ⟨hacc, List.pairwise_singleton _ _, ?_⟩
        intro a ha b hb
        rcases List.mem_singleton.mp hb with rfl
        exact hcross a ha (cl, sc) (List.mem_cons_self _ _)
      · intro a ha p hp
        rcases List.mem_append.mp ha with h | h
        · exact hcross a h p (List.mem_cons_of_mem _ hp)
        · rcases List.mem_singleton.mp h with rfl
          exact round4_mono (hhead p hp)

/-! ### Lowercasing is idempotent -/

theorem char_toNat_ofNat {n : Nat} (h : n.isValidChar) :
    (Char.ofNat n).toNat = n := by
  rw [Char.ofNat, dif_pos h]
  simp [Char.ofNatAux, Char.toNat, UInt32.toNat]

theorem char_toLower_idem (c : Char) : (c.toLower).toLower = c.toLower := by
  simp only [Char.toLower]
  by_cases h : c.toNat ≥ 65 ∧ c.toNat ≤ 90
  · rw [if_pos h]
    have hv : (c.toNat + 32).isValidChar := Or.inl (by omega)
    rw [char_toNat_ofNat hv, if_neg (by omega)]
  · rw [if_neg h, if_neg h]

theorem strLower_idem (s : String) : strLower (strLower s) = strLower s := by
  have h : ∀ l : List Char, (String.mk l).toList = l := fun l => rfl
  unfold strLower
  rw [h, List.map_map]
  congr 1
  exact List.map_congr_left (fun a _ => by
    simp only [Function.comp_apply]
    exact char_toLower_idem a)

theorem in_vocab_strLower (m : EmbModel α) (w : String) :
    in_vocab m (strLower w) = in_vocab m w := by
  unfold in_vocab
  rw [strLower_idem]

/-! ### Witness fixtures: a rational scalar instantiation -/

/-- Oracle bundle over ℚ whose external collaborators all fail or return
nothing. -/
def noOracles : Oracles ℚ where
  posTagSeq := fun _ => none
  wnLemmaNames := fun _ _ => []
  lemmatize := fun w _ => w
  hasSynsets := fun _ _ => true
  getInflection := fun _ _ => none
  mostSimilar := fun _ _ _ => none
  sqrt := fun _ => 0
  uniNameWords := fun _ => none
  uniCategory := fun _ => ""

/-- The empty embedding model over ℚ. -/
def emptyModel : EmbModel ℚ where
  vec := fun _ => none

/-- Claim C1: for every word and vibe with the lowercased word or vibe
absent from the embedding vocabulary, `morph_word` returns a
`MorphResult` with an empty candidate list, and `morph_emoji` returns an
empty candidate list whenever the glyph has no entry in the emoji index
or the lowercased vibe is out of vocabulary. -/
theorem claim_C1 (o : Oracles α) (m : EmbModel α) (word target_vibe g : String)
    (source_vibe : Option String) (top_n : Nat) (context : Option (List String))
    (h1 : in_vocab m word = false ∨ in_vocab m target_vibe = false)
    (h2 : indexLookup (build_emoji_index o m).1 g = none ∨
      in_vocab m target_vibe = false) :
    (morph_word o m word target_vibe source_vibe top_n context).candidates = [] ∧
    (morph_emoji o m g target_vibe top_n).candidates = [] := by
  constructor
  · unfold morph_word
    have hcond : (in_vocab m (strLower word) &&
        in_vocab m (strLower target_vibe)) = false := by
      rw [in_vocab_strLower, in_vocab_strLower]
      rcases h1 with h | h <;> simp [h]
    simp [hcond]
  · unfold morph_emoji
    rcases h2 with h | h
    · rw [h]
    · cases hidx : indexLookup (build_emoji_index o m).1 g with
      | none => rfl
      | some sv => simp [in_vocab_strLower, h]

theorem claim_C1_witness :
    (morph_word noOracles emptyModel ("dog") ("joy") none 8 none).candidates = [] ∧
    (morph_emoji noOracles emptyModel ("x") ("joy") 8).candidates = [] :=
  claim_C1 noOracles emptyModel ("dog") ("joy") ("x") none 8 none
    (Or.inl (by rfl)) (Or.inr (by rfl))

/-- Claim C5: no returned `morph_word` candidate's lowercased surface
form equals the lowercased original input word, and the input glyph
never appears among `morph_emoji`'s candidates. -/
theorem claim_C5 (o : Oracles α) (m : EmbModel α) (word target_vibe g : String)
    (source_vibe : Option String) (top_n : Nat) (context : Option (List String)) :
    (∀ c ∈ (morph_word o m word target_vibe source_vibe top_n context).candidates,
      strLower c.word ≠ strLower word) ∧
    (∀ c ∈ (morph_emoji o m g target_vibe top_n).candidates, c.word ≠ g) := by
  constructor
  · intro c hc
    unfold morph_word at hc
    split_ifs at hc with h
    · simp at hc
    · exact selectCands_ne_low o _ (strLower word) top_n _ [] []
        (fun a ha => absurd ha (List.not_mem_nil a)) c hc
  · intro c hc
    unfold morph_emoji at hc
    cases hlk : indexLookup (build_emoji_index o m).1 g with
    | none =>
      rw [hlk] at hc
      simp at hc
    | some sv =>
      rw [hlk] at hc
      split_ifs at hc with hv
      · simp at hc
      · simp only [List.mem_map] at hc
        obtain ⟨p, hp, rfl⟩ := hc
        have hp2 : p ∈ (emojiScoredOf o m g target_vibe).insertionSort scoreGE :=
          List.mem_of_mem_take hp
        have hp3 : p ∈ emojiScoredOf o m g target_vibe :=
          (List.mem_insertionSort scoreGE).mp hp2
        unfold emojiScoredOf at hp3
        rw [hlk] at hp3
        simp only [List.mem_map, List.mem_filter] at hp3
        obtain ⟨ch, ⟨hch, hne⟩, rfl⟩ := hp3
        simpa using hne

/-- Claim C6: an out-of-vocabulary source vibe is silently dropped:
`morph_word` with such a source vibe produces exactly the candidate list
of the call without one. -/
theorem claim_C6 (o : Oracles α) (m : EmbModel α) (word target_vibe s : String)
    (top_n : Nat) (context : Option (List String))
    (h : in_vocab m s = false) :
    (morph_word o m word target_vibe (some s) top_n context).candidates =
    (morph_word o m word target_vibe none top_n context).candidates := by
  have hsl : in_vocab m (strLower s) = false := by rw [in_vocab_strLower]; exact h
  have hsrc : srcUse m (some s) = srcUse m none := by
    unfold srcUse
    simp [hsl]
  unfold morph_word
  split_ifs with hcond
  · rfl
  · show selectCands o _ _ _ (sortedScoredOf o m word target_vibe (some s) top_n context) [] [] =
      selectCands o _ _ _ (sortedScoredOf o m word target_vibe none top_n context) [] []
    congr 1
    unfold sortedScoredOf scoredOf poolOf simCandsOf targetVecOf
    rw [hsrc]

theorem claim_C6_witness :
    (morph_word noOracles emptyModel ("dog") ("joy") (some ("zz")) 8 none).candidates =
    (morph_word noOracles emptyModel ("dog") ("joy") none 8 none).candidates :=
  claim_C6 noOracles emptyModel ("dog") ("joy") ("zz") 8 none (by rfl)

/-- Claim C7: `morph_word` is a pure function of its arguments — two
calls with identical word, vibe, source vibe, top-n and context against
the same model produce identical `MorphResult`s, equal-score ordering
included. -/
theorem claim_C7 (o : Oracles α) (m : EmbModel α) (w1 w2 v1 v2 : String)
    (s1 s2 : Option String) (n1 n2 : Nat)
    (ctx1 ctx2 : Option (List String))
    (hw : w1 = w2) (hv : v1 = v2) (hs : s1 = s2) (hn : n1 = n2)
    (hc : ctx1 = ctx2) :
    morph_word o m w1 v1 s1 n1 ctx1 = morph_word o m w2 v2 s2 n2 ctx2 := by
  subst hw
  subst hv
  subst hs
  subst hn
  subst hc
  rfl

theorem claim_C7_witness :
    morph_word noOracles emptyModel ("dog") ("joy") none 8 none =
    morph_word noOracles emptyModel ("dog") ("joy") none 8 none :=
  claim_C7 noOracles emptyModel ("dog") ("dog") ("joy") ("joy") none none 8 8
    none none rfl rfl rfl rfl rfl

/-- Claim C8: with the embedding model loaded, `morph_word` is total for
every oracle behaviour: a failing tagger yields an absent tag, a failing
inflector returns the word unchanged, and the call always produces a
`MorphResult` carrying the original word and vibe. -/
theorem claim_C8 (o : Oracles α) (m : EmbModel α) (word target_vibe : String)
    (source_vibe : Option String) (top_n : Nat) (context : Option (List String))
    (w t : String)
    (htag : ∀ ws, o.posTagSeq ws = none)
    (hinf : ∀ w' t', o.getInflection w' t' = none) :
    pos_tag_word o word context = none ∧
    inflect o w t = w ∧
    (morph_word o m word target_vibe source_vibe top_n context).original = word ∧
    (morph_word o m word target_vibe source_vibe top_n context).vibe = target_vibe := by
  refine ⟨?_, ?_, ?_, ?_⟩
  · cases context with
    | none => simp [pos_tag_word, htag]
    | some ctx =>
      by_cases hc : ctx.isEmpty <;> simp [pos_tag_word, htag, hc]
  · unfold inflect
    rw [hinf]
  · unfold morph_word
    split_ifs <;> rfl
  · unfold morph_word
    split_ifs <;> rfl

theorem claim_C8_witness :
    pos_tag_word noOracles ("xyzzyqq") none = none ∧
    inflect noOracles ("run") ("VBG") = ("run") ∧
    (morph_word noOracles emptyModel ("xyzzyqq") ("dread") none 8 none).original =
      ("xyzzyqq") ∧
    (morph_word noOracles emptyModel ("xyzzyqq") ("dread") none 8 none).vibe =
      ("dread") :=
  claim_C8 noOracles emptyModel ("xyzzyqq") ("dread") none 8 none ("run") ("VBG")
    (fun _ => rfl) (fun _ _ => rfl)

/-! ### Emoji index structure -/

theorem range'_disjoint {s1 n1 s2 n2 : Nat} (h : s1 + n1 ≤ s2 ∨ s2 + n2 ≤ s1) :
    List.Disjoint (List.range' s1 n1) (List.range' s2 n2) := by
  intro a ha hb
  rw [List.mem_range'_1] at ha hb
  omega

theorem emojiCps_nodup : emojiCps.Nodup := by
  unfold emojiCps
  rw [List.nodup_flatMap]
  constructor
  · intro p _
    exact List.nodup_range' _ _
  · unfold EMOJI_RANGES
    refine List.Pairwise.cons ?_ (List.Pairwise.cons ?_ (List.Pairwise.cons ?_
      (List.Pairwise.cons ?_ (List.Pairwise.cons ?_ (List.Pairwise.cons ?_
      (List.Pairwise.cons ?_ List.Pairwise.nil)))))) <;>
    · intro q hq
      fin_cases hq <;> exact range'_disjoint (by omega)

theorem emojiEntry_key (o : Oracles α) (m : EmbModel α) (cp : Nat)
    (e : String × Vec α) (h : emojiEntry o m cp = some e) :
    e.1 = String.mk [Char.ofNat cp] := by
  unfold emojiEntry at h
  split at h
  · exact absurd h (by simp)
  · split at h
    · exact absurd h (by simp)
    · split at h
      · exact absurd h (by simp)
      · cases h
        rfl

theorem nodup_filterMap_on {γ δ : Type} {l : List γ} {f : γ → Option δ}
    (hl : l.Nodup)
    (H : ∀ a ∈ l, ∀ a' ∈ l, ∀ b, b ∈ f a → b ∈ f a' → a = a') :
    (l.filterMap f).Nodup := by
  induction l with
  | nil => simp
  | cons x l ih =>
    rw [List.filterMap_cons]
    rcases List.nodup_cons.mp hl with ⟨hx, hl'⟩
    have ih' := ih hl' (fun a ha a' ha' b hb hb' =>
      H a (List.mem_cons_of_mem _ ha) a' (List.mem_cons_of_mem _ ha') b hb hb')
    cases hfx : f x with
    | none => exact ih'
    | some b =>
      rw [List.nodup_cons]
      refine ⟨?_, ih'⟩
      intro hbmem
      rcases List.mem_filterMap.mp hbmem with ⟨a, ha, hba⟩
      have hxa : x = a :=
        H x (List.mem_cons_self _ _) a (List.mem_cons_of_mem _ ha) b
          (by rw [hfx]; rfl) hba
      exact hx (hxa ▸ ha)

theorem emojiCps_bounds : ∀ cp ∈ emojiCps,
    (0x1F300 ≤ cp ∧ cp ≤ 0x1FAFF) ∨ (0x2600 ≤ cp ∧ cp ≤ 0x27BF) ∨
    (0x2300 ≤ cp ∧ cp ≤ 0x23FF) := by
  intro cp hcp
  unfold emojiCps at hcp
  rw [List.mem_flatMap] at hcp
  obtain ⟨p, hp, hcp⟩ := hcp
  rw [List.mem_range'_1] at hcp
  unfold EMOJI_RANGES at hp
  fin_cases hp <;> omega

theorem emojiCps_valid : ∀ cp ∈ emojiCps, cp.isValidChar := by
  intro cp h
  rcases emojiCps_bounds cp h with h1 | h1 | h1 <;>
    · unfold Nat.isValidChar
      omega

theorem emojiKey_toNat : ∀ cp ∈ emojiCps, (Char.ofNat cp).toNat = cp :=
  fun cp h => char_toNat_ofNat (emojiCps_valid cp h)

theorem char_toLower_of_large {c : Char} (h : 90 < c.toNat) : c.toLower = c := by
  simp only [Char.toLower]
  rw [if_neg]
  omega

theorem strLower_single (c : Char) :
    strLower (String.mk [c]) = String.mk [c.toLower] := rfl

theorem emojiKey_strLower : ∀ cp ∈ emojiCps,
    strLower (String.mk [Char.ofNat cp]) = String.mk [Char.ofNat cp] := by
  intro cp h
  rw [strLower_single, char_toLower_of_large]
  rw [emojiKey_toNat cp h]
  rcases emojiCps_bounds cp h with h1 | h1 | h1 <;> omega

theorem emojiKey_is_emoji : ∀ cp ∈ emojiCps,
    is_emoji (String.mk [Char.ofNat cp]) = true := by
  intro cp h
  show ((decide (0x1F300 ≤ (Char.ofNat cp).toNat) &&
      decide ((Char.ofNat cp).toNat ≤ 0x1FAFF)) ||
    (decide (0x2600 ≤ (Char.ofNat cp).toNat) &&
      decide ((Char.ofNat cp).toNat ≤ 0x27BF)) ||
    (decide (0x2300 ≤ (Char.ofNat cp).toNat) &&
      decide ((Char.ofNat cp).toNat ≤ 0x23FF))) = true
  rw [emojiKey_toNat cp h]
  simp only [Bool.or_eq_true, Bool.and_eq_true, decide_eq_true_eq]
  rcases emojiCps_bounds cp h with h1 | h1 | h1 <;> omega

theorem build_chars_shape (o : Oracles α) (m : EmbModel α) :
    ∀ ch ∈ (build_emoji_index o m).2,
      ∃ cp ∈ emojiCps, ch = String.mk [Char.ofNat cp] := by
  intro ch hch
  unfold build_emoji_index at hch
  simp only [List.mem_map] at hch
  obtain ⟨e, he, rfl⟩ := hch
  rw [List.mem_filterMap] at he
  obtain ⟨cp, hcp, hsome⟩ := he
  exact ⟨cp, hcp, emojiEntry_key o m cp e hsome⟩

theorem build_chars_nodup (o : Oracles α) (m : EmbModel α) :
    (build_emoji_index o m).2.Nodup := by
  show ((emojiCps.filterMap fun cp => emojiEntry o m cp).map (fun e => e.1)).Nodup
  rw [List.map_filterMap]
  apply nodup_filterMap_on emojiCps_nodup
  intro a ha a' ha' b hb hb'
  have hba : b = String.mk [Char.ofNat a] := by
    cases hea : emojiEntry o m a with
    | none => rw [hea] at hb; simp at hb
    | some e =>
      rw [hea] at hb
      simp only [Option.map_some', Option.mem_def, Option.some.injEq] at hb
      rw [← hb, emojiEntry_key o m a e hea]
  have hba' : b = String.mk [Char.ofNat a'] := by
    cases hea : emojiEntry o m a' with
    | none => rw [hea] at hb'; simp at hb'
    | some e =>
      rw [hea] at hb'
      simp only [Option.map_some', Option.mem_def, Option.some.injEq] at hb'
      rw [← hb', emojiEntry_key o m a' e hea]
  have hkey : String.mk [Char.ofNat a] = String.mk [Char.ofNat a'] := by
    rw [← hba, hba']
  have hchar : Char.ofNat a = Char.ofNat a' := by
    have hdata : [Char.ofNat a] = [Char.ofNat a'] := congrArg String.data hkey
    simpa using hdata
  rw [← emojiKey_toNat a ha, ← emojiKey_toNat a' ha', hchar]

theorem emojiEntry_val (o : Oracles α) (m : EmbModel α) (cp : Nat)
    (e : String × Vec α) (h : emojiEntry o m cp = some e) :
    ∃ v, e.2 = normalizeVec o v := by
  unfold emojiEntry at h
  split at h
  · exact absurd h (by simp)
  · split at h
    · exact absurd h (by simp)
    · split at h
      · exact absurd h (by simp)
      · cases h
        exact ⟨_, rfl⟩

theorem emojiCps_ranges : ∀ cp ∈ emojiCps, inBuildRanges cp = true := by
  intro cp hcp
  unfold emojiCps at hcp
  rw [List.mem_flatMap] at hcp
  obtain ⟨p, hp, hcp⟩ := hcp
  unfold inBuildRanges
  rw [List.any_eq_true]
  refine ⟨p, hp, ?_⟩
  simp only [Bool.and_eq_true, decide_eq_true_eq]
  rw [List.mem_range'_1] at hcp
  unfold EMOJI_RANGES at hp
  fin_cases hp <;> omega

/-- Claim C10: every glyph admitted to the emoji index satisfies
`is_emoji` (the build ranges are a subset of the `is_emoji` ranges), but
the converse fails: code point 0x1F650 passes `is_emoji` yet lies outside
every build range, so no model or oracle ever gives it an index entry. -/
theorem claim_C10 (o : Oracles α) (m : EmbModel α) :
    (∀ e ∈ (build_emoji_index o m).1, is_emoji e.1 = true) ∧
    is_emoji (String.mk [Char.ofNat 0x1F650]) = true ∧
    inBuildRanges 0x1F650 = false ∧
    (∀ e ∈ (build_emoji_index o m).1, e.1 ≠ String.mk [Char.ofNat 0x1F650]) := by
  have hfst : (build_emoji_index o m).1 =
      emojiCps.filterMap (fun cp => emojiEntry o m cp) := rfl
  refine ⟨?_, by decide, by decide, ?_⟩
  · intro e he
    rw [hfst, List.mem_filterMap] at he
    obtain ⟨cp, hcp, hsome⟩ := he
    rw [emojiEntry_key o m cp e hsome]
    exact emojiKey_is_emoji cp hcp
  · intro e he hkey
    rw [hfst, List.mem_filterMap] at he
    obtain ⟨cp, hcp, hsome⟩ := he
    rw [emojiEntry_key o m cp e hsome] at hkey
    have hdata : [Char.ofNat cp] = [Char.ofNat 0x1F650] := congrArg String.data hkey
    have hchar : Char.ofNat cp = Char.ofNat 0x1F650 := by simpa using hdata
    have hcp' : cp = 0x1F650 := by
      have h1 := emojiKey_toNat cp hcp
      have h2 : (Char.ofNat (0x1F650 : Nat)).toNat = 0x1F650 := by decide
      rw [← h1, hchar, h2]
    have hr := emojiCps_ranges cp hcp
    rw [hcp'] at hr
    exact absurd hr (by decide)

/-- Claim C9 (amended): every vector stored in the emoji index is
unit-norm, except that a glyph whose keyword-vector mean is the zero
vector is stored with the zero vector (squared norm 0) because the
build skips normalization when the norm is not positive. -/
theorem claim_C9 (o : Oracles ℝ) (m : EmbModel ℝ) (hs : o.sqrt = Real.sqrt) :
    ∀ e ∈ (build_emoji_index o m).1, normSq e.2 = 1 ∨ normSq e.2 = 0 := by
  intro e he
  have hfst : (build_emoji_index o m).1 =
      emojiCps.filterMap (fun cp => emojiEntry o m cp) := rfl
  rw [hfst, List.mem_filterMap] at he
  obtain ⟨cp, _, hsome⟩ := he
  obtain ⟨v, hv⟩ := emojiEntry_val o m cp e hsome
  rw [hv]
  exact normalizeVec_normSq o hs v

/-- Real-valued oracle bundle with the genuine square root; all other
collaborators fail or return nothing. -/
noncomputable def realOracles : Oracles ℝ where
  posTagSeq := fun _ => none
  wnLemmaNames := fun _ _ => []
  lemmatize := fun w _ => w
  hasSynsets := fun _ _ => true
  getInflection := fun _ _ => none
  mostSimilar := fun _ _ _ => none
  sqrt := Real.sqrt
  uniNameWords := fun _ => none
  uniCategory := fun _ => ""

/-- The empty embedding model over ℝ. -/
def emptyModelR : EmbModel ℝ where
  vec := fun _ => none

theorem claim_C9_witness :
    realOracles.sqrt = Real.sqrt ∧
    ∀ e ∈ (build_emoji_index realOracles emptyModelR).1,
      normSq e.2 = 1 ∨ normSq e.2 = 0 :=
  ⟨rfl, claim_C9 realOracles emptyModelR rfl⟩

/-- Oracle bundle over ℚ naming one glyph, U+1F300, with the two name
words aa and bb; the square-root oracle is only ever applied to the
squared norm of the zero mean vector, where the true square root is 0. -/
def zeroMeanOracles : Oracles ℚ where
  posTagSeq := fun _ => none
  wnLemmaNames := fun _ _ => []
  lemmatize := fun w _ => w
  hasSynsets := fun _ _ => true
  getInflection := fun _ _ => none
  mostSimilar := fun _ _ _ => none
  sqrt := fun _ => 0
  uniNameWords := fun cp => if cp = 0x1F300 then some [("aa"), ("bb")] else none
  uniCategory := fun _ => ("So")

/-- Model mapping the two keywords to opposite one-dimensional vectors,
so their mean is the zero vector. -/
def oppositeModel : EmbModel ℚ where
  vec := fun w =>
    if w = ("aa") then some [1] else if w = ("bb") then some [-1] else none

/-- Claim C9 counterexample: a glyph admitted to the index (its name has
in-vocabulary keywords) whose keyword vectors average to the zero vector
is stored with the zero vector, which does not have unit norm. -/
theorem claim_C9_counterexample :
    ¬ (∀ e ∈ (build_emoji_index zeroMeanOracles oppositeModel).1,
        normSq e.2 = 1) := by
  intro hall
  have hcp : (0x1F300 : Nat) ∈ emojiCps := by decide
  have hmem : (String.mk [Char.ofNat 0x1F300],
      normalizeVec zeroMeanOracles
        (vmean (emojiKeywordVecs oppositeModel [("aa"), ("bb")])))
      ∈ (build_emoji_index zeroMeanOracles oppositeModel).1 :=
    List.mem_filterMap.mpr ⟨0x1F300, hcp, rfl⟩
  have hone := hall _ hmem
  have hvecs : emojiKeywordVecs oppositeModel [("aa"), ("bb")] =
      ([[1], [-1]] : List (Vec ℚ)) := rfl
  rw [hvecs] at hone
  have hz : normSq (normalizeVec zeroMeanOracles
      (vmean ([[1], [-1]] : List (Vec ℚ)))) = 0 := by
    norm_num [normalizeVec, vnorm, normSq, dot, vmean, vsum, vadd, sdiv,
      zeroMeanOracles]
  rw [hz] at hone
  exact absurd hone (by norm_num)

theorem build_chars_strLower (o : Oracles α) (m : EmbModel α) :
    ∀ ch ∈ (build_emoji_index o m).2, strLower ch = ch := by
  intro ch hch
  obtain ⟨cp, hcp, rfl⟩ := build_chars_shape o m ch hch
  exact emojiKey_strLower cp hcp

theorem emojiScored_fst (o : Oracles α) (m : EmbModel α) (g v : String)
    (p : String × α) (hp : p ∈ emojiScoredOf o m g v) :
    p.1 ∈ (build_emoji_index o m).2 ∧ p.1 ≠ g := by
  unfold emojiScoredOf at hp
  cases hlk : indexLookup (build_emoji_index o m).1 g with
  | none => rw [hlk] at hp; simp at hp
  | some sv =>
    rw [hlk] at hp
    simp only [List.mem_map, List.mem_filter] at hp
    obtain ⟨ch, ⟨hch, hne⟩, rfl⟩ := hp
    exact ⟨hch, by simpa using hne⟩

theorem emojiScored_fst_nodup (o : Oracles α) (m : EmbModel α) (g v : String) :
    ((emojiScoredOf o m g v).map (fun p => p.1)).Nodup := by
  unfold emojiScoredOf
  cases hlk : indexLookup (build_emoji_index o m).1 g with
  | none => simp
  | some sv =>
    rw [List.map_map]
    have : ((fun p : String × α => p.1) ∘
        fun ch => (ch, dot ((indexLookup (build_emoji_index o m).1 ch).getD [])
          (emojiTargetOf o m sv v))) = fun ch => ch := rfl
    rw [this, List.map_id']
    exact (build_chars_nodup o m).filter _

/-- Claim C4 (amended): `morph_word` candidate lists never exceed
`max top_n 1` in length — so at most `top_n` whenever `top_n ≥ 1`, while
`top_n = 0` still admits one candidate because the loop tests the bound
only after appending — and contain no two candidates with the same
lowercased surface form; `morph_emoji` lists never exceed `top_n` and
contain no duplicate glyphs (lowercasing fixes every indexed glyph). -/
theorem claim_C4 (o : Oracles α) (m : EmbModel α) (word target_vibe g : String)
    (source_vibe : Option String) (top_n : Nat) (context : Option (List String)) :
    (morph_word o m word target_vibe source_vibe top_n context).candidates.length ≤
      max top_n 1 ∧
    ((morph_word o m word target_vibe source_vibe top_n context).candidates.map
      (fun c => strLower c.word)).Nodup ∧
    (morph_emoji o m g target_vibe top_n).candidates.length ≤ top_n ∧
    ((morph_emoji o m g target_vibe top_n).candidates.map
      (fun c => strLower c.word)).Nodup := by
  refine ⟨?_, ?_, ?_, ?_⟩
  · unfold morph_word
    split_ifs with h
    · simp
    · show (selectCands o _ _ top_n _ [] []).length ≤ max top_n 1
      exact selectCands_length o _ _ top_n _ [] []
  · unfold morph_word
    split_ifs with h
    · simp
    · show ((selectCands o _ _ top_n _ [] []).map _).Nodup
      exact selectCands_nodup o _ _ top_n _ [] [] (by simp)
        (fun a ha => absurd ha (List.not_mem_nil a))
  · unfold morph_emoji
    cases hlk : indexLookup (build_emoji_index o m).1 g with
    | none => simp
    | some sv =>
      split_ifs with hv
      · simp
      · show ((((emojiScoredOf o m g target_vibe).insertionSort scoreGE).take
          top_n).map _).length ≤ top_n
        rw [List.length_map, List.length_take]
        exact min_le_left _ _
  · unfold morph_emoji
    cases hlk : indexLookup (build_emoji_index o m).1 g with
    | none => simp
    | some sv =>
      split_ifs with hv
      · simp
      · show (((((emojiScoredOf o m g target_vibe).insertionSort scoreGE).take
          top_n).map (fun p => Candidate.mk p.1 (round4 p.2))).map
            (fun c => strLower c.word)).Nodup
        rw [List.map_map]
        have hmem : ∀ p ∈ ((emojiScoredOf o m g target_vibe).insertionSort
            scoreGE).take top_n, p.1 ∈ (build_emoji_index o m).2 := by
          intro p hp
          have hp2 := (List.mem_insertionSort scoreGE).mp (List.mem_of_mem_take hp)
          exact (emojiScored_fst o m g target_vibe p hp2).1
        have hcon : (((emojiScoredOf o m g target_vibe).insertionSort
            scoreGE).take top_n).map ((fun c : Candidate α => strLower c.word) ∘
              (fun p => Candidate.mk p.1 (round4 p.2))) =
            (((emojiScoredOf o m g target_vibe).insertionSort scoreGE).take
              top_n).map (fun p => p.1) := by
          refine List.map_congr_left ?_
          intro p hp
          simp only [Function.comp_apply]
          exact build_chars_strLower o m p.1 (hmem p hp)
        rw [hcon, List.map_take]
        refine List.Nodup.sublist (List.take_sublist _ _) ?_
        have hperm : List.Perm (((emojiScoredOf o m g target_vibe).insertionSort
            scoreGE).map (fun p => p.1))
            ((emojiScoredOf o m g target_vibe).map (fun p => p.1)) :=
          (List.perm_insertionSort scoreGE _).map _
        exact hperm.nodup_iff.mpr (emojiScored_fst_nodup o m g target_vibe)

/-- Oracle bundle over ℚ whose `most_similar` returns one neighbour;
the square-root oracle is applied only to squared norms equal to 1 in
the counterexample run, where the true square root is 1. -/
def simOracles : Oracles ℚ where
  posTagSeq := fun _ => none
  wnLemmaNames := fun _ _ => []
  lemmatize := fun w _ => w
  hasSynsets := fun _ _ => true
  getInflection := fun _ _ => none
  mostSimilar := fun _ _ _ => some [(("cat"), 0)]
  sqrt := fun _ => 1
  uniNameWords := fun _ => none
  uniCategory := fun _ => ""

/-- Model with unit vectors for the word and the neighbour and a zero
vector for the vibe, so every norm the run takes is 1. -/
def unitModel : EmbModel ℚ where
  vec := fun w =>
    if w = ("dog") then some [1]
    else if w = ("joy") then some [0]
    else if w = ("cat") then some [1] else none

/-- Claim C4 counterexample: with `top_n = 0`, `morph_word` still
returns one candidate, so its candidate list exceeds `top_n`. -/
theorem claim_C4_counterexample :
    ¬ ((morph_word simOracles unitModel ("dog") ("joy") none 0
        none).candidates.length ≤ 0) := by decide

theorem zip_getElem? {γ δ : Type} (a : List γ) (b : List δ) (i : Nat) :
    (a.zip b)[i]? = match a[i]?, b[i]? with
      | some x, some y => some (x, y)
      | _, _ => none := by
  induction a generalizing b i with
  | nil => simp
  | cons x a ih =>
    cases b with
    | nil => simp
    | cons y b =>
      cases i with
      | zero => simp
      | succ i => simpa using ih b i

theorem morph_word_original (o : Oracles α) (m : EmbModel α)
    (word target_vibe : String) (source_vibe : Option String) (top_n : Nat)
    (context : Option (List String)) :
    (morph_word o m word target_vibe source_vibe top_n context).original = word := by
  unfold morph_word
  split_ifs <;> rfl

/-- Claim C3 (amended): whenever contexts are omitted or supply at least
one entry per word, `morph_words` returns one result per input word in
order, the i-th produced by `morph_word` on the i-th word paired with
the i-th context entry (no context for every word when omitted), and the
i-th result's `original` field is the i-th word, regardless of
vocabulary misses. -/
theorem claim_C3 (o : Oracles α) (m : EmbModel α) (words : List String)
    (target_vibe : String) (source_vibe : Option String) (top_n : Nat)
    (contexts : Option (List (List String)))
    (h : contexts = none ∨
      ∃ cs, contexts = some cs ∧ words.length ≤ cs.length) :
    (morph_words o m words target_vibe source_vibe top_n contexts).length =
      words.length ∧
    (∀ i : Nat,
      (morph_words o m words target_vibe source_vibe top_n contexts)[i]? =
        (words[i]?).map (fun w => morph_word o m w target_vibe source_vibe top_n
          (match contexts with | none => none | some cs => cs[i]?))) ∧
    (∀ i : Nat,
      ((morph_words o m words target_vibe source_vibe top_n
        contexts)[i]?).map (fun r => r.original) = words[i]?) := by
  have hget : ∀ i : Nat,
      (morph_words o m words target_vibe source_vibe top_n contexts)[i]? =
        (words[i]?).map (fun w => morph_word o m w target_vibe source_vibe top_n
          (match contexts with | none => none | some cs => cs[i]?)) := by
    intro i
    unfold morph_words
    rw [List.getElem?_map, zip_getElem?]
    cases hw : words[i]? with
    | none => simp
    | some w =>
      have hi : i < words.length := by
        by_contra hge
        rw [List.getElem?_eq_none (by omega)] at hw
        exact absurd hw (by simp)
      rcases h with rfl | ⟨cs, rfl, hlen⟩
      · rw [List.getElem?_map, hw]
        rfl
      · have hics : i < cs.length := lt_of_lt_of_le hi hlen
        rw [List.getElem?_map, List.getElem?_eq_getElem hics]
        simp [List.getElem?_eq_getElem hics]
  refine ⟨?_, hget, ?_⟩
  · unfold morph_words
    rw [List.length_map, List.length_zip]
    rcases h with rfl | ⟨cs, rfl, hlen⟩
    · simp
    · simp only [List.length_map]
      omega
  · intro i
    rw [hget i]
    cases hw : words[i]? with
    | none => simp
    | some w => simp [morph_word_original]

theorem claim_C3_witness :
    (morph_words noOracles emptyModel [("running"), ("home")] ("joy") none 8
      none).length = [("running"), ("home")].length ∧
    (∀ i : Nat,
      (morph_words noOracles emptyModel [("running"), ("home")] ("joy") none 8
        none)[i]? =
        ([("running"), ("home")][i]?).map (fun w =>
          morph_word noOracles emptyModel w ("joy") none 8
            (match (none : Option (List (List String))) with
             | none => none | some cs => cs[i]?))) ∧
    (∀ i : Nat,
      ((morph_words noOracles emptyModel [("running"), ("home")] ("joy") none 8
        none)[i]?).map (fun r => r.original) = [("running"), ("home")][i]?) :=
  claim_C3 noOracles emptyModel [("running"), ("home")] ("joy") none 8 none
    (Or.inl rfl)

/-- Claim C3 counterexample: a supplied contexts list shorter than the
word list truncates the output (`zip` stops at the shorter list), so the
output length does not match the input length. -/
theorem claim_C3_counterexample :
    ¬ ((morph_words noOracles emptyModel [("a")] ("v") none 8
        (some [])).length = [("a")].length) := by decide

/-! ### Score shape and bounds -/

theorem scoredOf_shape (o : Oracles α) (m : EmbModel α) (word target_vibe : String)
    (source_vibe : Option String) (top_n : Nat) (context : Option (List String)) :
    ∀ p ∈ scoredOf o m word target_vibe source_vibe top_n context,
      p.2 = dot (targetVecOf o m word target_vibe source_vibe) (getVec m p.1) /
        vnorm o (getVec m p.1) ∧
      ¬ (vnorm o (getVec m p.1) = 0) := by
  intro p hp
  unfold scoredOf at hp
  rw [List.mem_filterMap] at hp
  obtain ⟨cand, hcand, hf⟩ := hp
  split_ifs at hf with h1 h2 h3
  cases hf
  exact ⟨rfl, h3⟩

theorem targetVec_normSq (o : Oracles ℝ) (m : EmbModel ℝ)
    (word target_vibe : String) (source_vibe : Option String)
    (hs : o.sqrt = Real.sqrt) :
    normSq (targetVecOf o m word target_vibe source_vibe) = 1 ∨
    normSq (targetVecOf o m word target_vibe source_vibe) = 0 := by
  unfold targetVecOf
  exact normalizeVec_normSq o hs _

theorem scoredOf_bound (o : Oracles ℝ) (m : EmbModel ℝ) (word target_vibe : String)
    (source_vibe : Option String) (top_n : Nat) (context : Option (List String))
    (hs : o.sqrt = Real.sqrt) :
    ∀ p ∈ scoredOf o m word target_vibe source_vibe top_n context,
      -1 ≤ p.2 ∧ p.2 ≤ 1 := by
  intro p hp
  obtain ⟨hform, hnz⟩ :=
    scoredOf_shape o m word target_vibe source_vibe top_n context p hp
  rw [hform]
  unfold vnorm at hnz ⊢
  rw [hs] at hnz ⊢
  exact cos_sim_bound _ _ (targetVec_normSq o m word target_vibe source_vibe hs) hnz

theorem emojiIndex_normSq (o : Oracles ℝ) (m : EmbModel ℝ)
    (hs : o.sqrt = Real.sqrt) :
    ∀ e ∈ (build_emoji_index o m).1, normSq e.2 = 1 ∨ normSq e.2 = 0 := by
  intro e he
  have hfst : (build_emoji_index o m).1 =
      emojiCps.filterMap (fun cp => emojiEntry o m cp) := rfl
  rw [hfst, List.mem_filterMap] at he
  obtain ⟨cp, _, hsome⟩ := he
  obtain ⟨v, hv⟩ := emojiEntry_val o m cp e hsome
  rw [hv]
  exact normalizeVec_normSq o hs v

theorem indexLookup_mem {idx : List (String × Vec α)} {k : String} {v : Vec α}
    (h : indexLookup idx k = some v) : ∃ e ∈ idx, e.2 = v := by
  unfold indexLookup at h
  cases hf : idx.find? (fun e => e.1 == k) with
  | none => rw [hf] at h; exact absurd h (by simp)
  | some e =>
    rw [hf] at h
    refine ⟨e, List.mem_of_find?_eq_some hf, ?_⟩
    simpa using h

theorem emojiScored_shape (o : Oracles α) (m : EmbModel α) (g v : String) :
    ∀ p ∈ emojiScoredOf o m g v,
      ∃ sv, indexLookup (build_emoji_index o m).1 g = some sv ∧
        p.2 = dot ((indexLookup (build_emoji_index o m).1 p.1).getD [])
          (emojiTargetOf o m sv v) := by
  intro p hp
  unfold emojiScoredOf at hp
  cases hlk : indexLookup (build_emoji_index o m).1 g with
  | none => rw [hlk] at hp; simp at hp
  | some sv =>
    rw [hlk] at hp
    simp only [List.mem_map, List.mem_filter] at hp
    obtain ⟨ch, ⟨hch, hne⟩, rfl⟩ := hp
    exact ⟨sv, rfl, rfl⟩

theorem getD_normSq_le (o : Oracles ℝ) (m : EmbModel ℝ)
    (hs : o.sqrt = Real.sqrt) (k : String) :
    normSq ((indexLookup (build_emoji_index o m).1 k).getD []) ≤ 1 := by
  cases hlk : indexLookup (build_emoji_index o m).1 k with
  | none => simp [normSq_nil]
  | some v =>
    obtain ⟨e, he, hev⟩ := indexLookup_mem hlk
    simp only [Option.getD_some]
    rcases emojiIndex_normSq o m hs e he with h | h <;> rw [← hev, h]
    · norm_num

theorem emojiScored_bound (o : Oracles ℝ) (m : EmbModel ℝ) (g v : String)
    (hs : o.sqrt = Real.sqrt) :
    ∀ p ∈ emojiScoredOf o m g v, -1 ≤ p.2 ∧ p.2 ≤ 1 := by
  intro p hp
  obtain ⟨sv, _, hform⟩ := emojiScored_shape o m g v p hp
  rw [hform]
  apply interval_of_sq_le_one
  have h1 := getD_normSq_le o m hs p.1
  have h2 : normSq (emojiTargetOf o m sv v) ≤ 1 := by
    unfold emojiTargetOf
    rcases normalizeVec_normSq o hs
      (vadd sv (normalizeVec o (getVec m (strLower v)))) with h | h <;>
      rw [h]
    · norm_num
  have hCS := dot_sq_le_normSq_mul
    ((indexLookup (build_emoji_index o m).1 p.1).getD []) (emojiTargetOf o m sv v)
  have hw := normSq_nonneg ((indexLookup (build_emoji_index o m).1 p.1).getD [])
  have ht := normSq_nonneg (emojiTargetOf o m sv v)
  nlinarith

/-- Claim C2: with the genuine square root, every `morph_word` and
`morph_emoji` result has its candidates sorted by score in non-increasing
order; every candidate score lies in [-1, 1] and is the 4-decimal
rounding of the computed cosine similarity (for words, the dot product
of the normalized target vector with the candidate vector divided by the
candidate's norm; for glyphs, the plain dot product of the indexed glyph
vector with the normalized target vector). -/
theorem claim_C2 (o : Oracles ℝ) (m : EmbModel ℝ) (word target_vibe g : String)
    (source_vibe : Option String) (top_n : Nat) (context : Option (List String))
    (hs : o.sqrt = Real.sqrt) :
    ((morph_word o m word target_vibe source_vibe top_n context).candidates).Pairwise
      (fun a b => b.score ≤ a.score) ∧
    (∀ c ∈ (morph_word o m word target_vibe source_vibe top_n context).candidates,
      (-1 ≤ c.score ∧ c.score ≤ 1) ∧
      ∃ p ∈ scoredOf o m word target_vibe source_vibe top_n context,
        c.score = round4 p.2 ∧
        p.2 = dot (targetVecOf o m word target_vibe source_vibe) (getVec m p.1) /
          vnorm o (getVec m p.1)) ∧
    ((morph_emoji o m g target_vibe top_n).candidates).Pairwise
      (fun a b => b.score ≤ a.score) ∧
    (∀ c ∈ (morph_emoji o m g target_vibe top_n).candidates,
      (-1 ≤ c.score ∧ c.score ≤ 1) ∧
      ∃ p ∈ emojiScoredOf o m g target_vibe,
        c.word = p.1 ∧ c.score = round4 p.2) ∧
    (∀ p ∈ emojiScoredOf o m g target_vibe,
      ∃ sv, indexLookup (build_emoji_index o m).1 g = some sv ∧
        p.2 = dot ((indexLookup (build_emoji_index o m).1 p.1).getD [])
          (emojiTargetOf o m sv target_vibe)) := by
  have hWsorted : List.Pairwise (fun p q : String × ℝ => q.2 ≤ p.2)
      (sortedScoredOf o m word target_vibe source_vibe top_n context) :=
    List.sorted_insertionSort scoreGE
      (scoredOf o m word target_vibe source_vibe top_n context)
  have hEsorted : List.Pairwise (fun p q : String × ℝ => q.2 ≤ p.2)
      ((emojiScoredOf o m g target_vibe).insertionSort scoreGE) :=
    List.sorted_insertionSort scoreGE (emojiScoredOf o m g target_vibe)
  refine ⟨?_, ?_, ?_, ?_, emojiScored_shape o m g target_vibe⟩
  · unfold morph_word
    split_ifs with h
    · simp
    · show List.Pairwise _ (selectCands o _ _ top_n _ [] [])
      exact selectCands_sorted o _ _ top_n _ [] [] List.Pairwise.nil hWsorted
        (fun a ha => absurd ha (List.not_mem_nil a))
  · intro c hc
    unfold morph_word at hc
    split_ifs at hc with h
    · simp at hc
    · rcases selectCands_mem o _ _ top_n _ [] [] c hc with h0 | ⟨p, hp, hw, hsc⟩
      · exact absurd h0 (List.not_mem_nil c)
      · have hps : p ∈ scoredOf o m word target_vibe source_vibe top_n context :=
          (List.mem_insertionSort scoreGE).mp hp
        obtain ⟨hb1, hb2⟩ :=
          scoredOf_bound o m word target_vibe source_vibe top_n context hs p hps
        obtain ⟨hform, _⟩ :=
          scoredOf_shape o m word target_vibe source_vibe top_n context p hps
        refine ⟨⟨?_, ?_⟩, p, hps, hsc, hform⟩
        · rw [hsc]; exact neg_one_le_round4 hb1
        · rw [hsc]; exact round4_le_one hb2
  · unfold morph_emoji
    cases hlk : indexLookup (build_emoji_index o m).1 g with
    | none => simp
    | some sv =>
      split_ifs with hv
      · simp
      · show List.Pairwise _
          ((((emojiScoredOf o m g target_vibe).insertionSort scoreGE).take
            top_n).map (fun p => Candidate.mk p.1 (round4 p.2)))
        rw [List.pairwise_map]
        refine List.Pairwise.imp ?_
          (List.Pairwise.sublist (List.take_sublist _ _) hEsorted)
        intro a b hab
        exact round4_mono hab
  · intro c hc
    unfold morph_emoji at hc
    cases hlk : indexLookup (build_emoji_index o m).1 g with
    | none => rw [hlk] at hc; simp at hc
    | some sv =>
      rw [hlk] at hc
      split_ifs at hc with hv
      · simp at hc
      · simp only [List.mem_map] at hc
        obtain ⟨p, hp, rfl⟩ := hc
        have hps : p ∈ emojiScoredOf o m g target_vibe :=
          (List.mem_insertionSort scoreGE).mp (List.mem_of_mem_take hp)
        obtain ⟨hb1, hb2⟩ := emojiScored_bound o m g target_vibe hs p hps
        exact ⟨⟨neg_one_le_round4 hb1, round4_le_one hb2⟩, p, hps, rfl, rfl⟩

theorem claim_C2_witness :
    ((morph_word realOracles emptyModelR ("warm") ("dread") none 8
      none).candidates).Pairwise (fun a b => b.score ≤ a.score) ∧
    (∀ c ∈ (morph_word realOracles emptyModelR ("warm") ("dread") none 8
      none).candidates,
      (-1 ≤ c.score ∧ c.score ≤ 1) ∧
      ∃ p ∈ scoredOf realOracles emptyModelR ("warm") ("dread") none 8 none,
        c.score = round4 p.2 ∧
        p.2 = dot (targetVecOf realOracles emptyModelR ("warm") ("dread") none)
          (getVec emptyModelR p.1) / vnorm realOracles (getVec emptyModelR p.1)) ∧
    ((morph_emoji realOracles emptyModelR ("x") ("dread") 8).candidates).Pairwise
      (fun a b => b.score ≤ a.score) ∧
    (∀ c ∈ (morph_emoji realOracles emptyModelR ("x") ("dread") 8).candidates,
      (-1 ≤ c.score ∧ c.score ≤ 1) ∧
      ∃ p ∈ emojiScoredOf realOracles emptyModelR ("x") ("dread"),
        c.word = p.1 ∧ c.score = round4 p.2) ∧
    (∀ p ∈ emojiScoredOf realOracles emptyModelR ("x") ("dread"),
      ∃ sv, indexLookup (build_emoji_index realOracles emptyModelR).1 ("x") =
        some sv ∧
        p.2 = dot ((indexLookup (build_emoji_index realOracles
          emptyModelR).1 p.1).getD [])
          (emojiTargetOf realOracles emptyModelR sv ("dread"))) :=
  claim_C2 realOracles emptyModelR ("warm") ("dread") ("x") none 8 none rfl
